import Mathlib

/-!
Shallow embedding of the resumable chunk-processing job engine
(netlify/functions/direct-worker-background.js, batch-download.mjs,
direct-status.js, batch-create.mjs) and proofs about its specification.

Rows are association lists from column name to cell text; JavaScript
object property assignment is modelled by an update-or-append operation,
and property lookup by first-match search.  Machine numbers that the code
treats as integers (row ids, counters, timestamps, HTTP statuses) are
modelled as Int or Nat; the backoff delay, which multiplies by a random
factor, is modelled over the rationals.
-/

/-- A CSV row as produced by the csv parser: an association list from
column name to cell value, in key order. -/
abbrev Row := List (String × String)

/-- Property lookup on a row object: value of the first binding of key k. -/
def getCol (row : Row) (k : String) : Option String :=
  (row.find? (fun p => p.1 == k)).map (fun p => p.2)

/-- Property assignment on a row object: overwrite the binding of key k in
place if present, otherwise append a new binding (JavaScript object
property-set semantics as observed through getCol). -/
def setCol (row : Row) (k v : String) : Row :=
  if row.any (fun p => p.1 == k) then
    row.map (fun p => if p.1 == k then (k, v) else p)
  else row ++ [(k, v)]

/-- The value the csv stringifier emits for column k of a row: the stored
value, or the empty string when the row has no such property. -/
def colValue (row : Row) (k : String) : String :=
  (getCol row k).getD ""

/-- Insertion-ordered set insertion, as used for the dynamic column set
(a JavaScript Set preserves first-insertion order). -/
def addCol (s : List String) (k : String) : List String :=
  if s.contains k then s else s ++ [k]

/-- Original headers: the keys of the first row (empty for an empty table),
mirroring Object.keys of rows zero. -/
def origHeaders (rows : List Row) : List String :=
  (rows.headD []).map (fun p => p.1)

/-- A JSON leaf value appearing in a per-row cols object, as the merge
stringifies it: a string stays itself, null becomes the empty string, any
other value carries its JavaScript string rendering. -/
inductive JVal where
  | jstr : String → JVal
  | jnull : JVal
  | jother : String → JVal
deriving DecidableEq, Repr

/-- The string written into a cell for a cols value. -/
def jvalToString : JVal → String
  | .jstr s => s
  | .jnull => ""
  | .jother r => r

/-- One per-row result inside a parsed chunk partial.  id is the numeric
coercion of the result id field (none when not a finite number); cols is
the named-columns object when present; result is the bare result field
when it is a string. -/
structure ResultItem where
  id : Option Int
  cols : Option (List (String × JVal))
  result : Option String
deriving DecidableEq, Repr

/-- The shape of a parsed chunk partial as the merge loop inspects it:
an object whose results field is an array, a bare array, or anything else
(for instance the empty object persisted when the completion text failed
to parse), which the merge skips. -/
inductive PartShape where
  | resultsObj : List ResultItem → PartShape
  | plainArr : List ResultItem → PartShape
  | invalid : PartShape
deriving DecidableEq, Repr

/-- The per-row result array the merge loop extracts from a partial,
none when the shape guard rejects it. -/
def extractArr : PartShape → Option (List ResultItem)
  | .resultsObj l => some l
  | .plainArr l => some l
  | .invalid => none

/-- The list of per-row results effectively processed for one chunk slot
(empty when the slot is absent or its shape is rejected). -/
def partItems (op : Option PartShape) : List ResultItem :=
  match op with
  | none => []
  | some p => (extractArr p).getD []

/-- Processing one cols entry of an applied result targeting row n:
write the stringified value into that column of row n and record the
column name in the dynamic column set. -/
def applyEntry (n : Nat) (st : List Row × List String) (kv : String × JVal) :
    List Row × List String :=
  (st.1.set n (setCol (st.1.getD n []) kv.1 (jvalToString kv.2)),
   addCol st.2 kv.1)

/-- Processing one per-row result in the merge loop: skip when the id is
not a finite number or out of bounds; otherwise write the cols entries,
or fall back to the bare result string into the conventional result
column. -/
def applyItem (st : List Row × List String) (item : ResultItem) :
    List Row × List String :=
  match item.id with
  | none => st
  | some i =>
    if i < 0 ∨ (st.1.length : Int) ≤ i then st
    else
      match item.cols with
      | some entries => entries.foldl (applyEntry i.toNat) st
      | none =>
        match item.result with
        | some r =>
          (st.1.set i.toNat (setCol (st.1.getD i.toNat []) "result" r),
           addCol st.2 "result")
        | none => st

/-- Processing one chunk slot in the merge loop: skip absent or
shape-rejected partials, otherwise fold the per-row results. -/
def applyPartOpt (st : List Row × List String) (op : Option PartShape) :
    List Row × List String :=
  match op with
  | none => st
  | some p =>
    match extractArr p with
    | none => st
    | some items => items.foldl applyItem st

/-- The merge of the direct-worker reconciler: start from a copy of the
original rows and an empty dynamic column set, and fold over the chunk
slots in index order. -/
def mergeState (rows : List Row) (parts : List (Option PartShape)) :
    List Row × List String :=
  parts.foldl applyPartOpt (rows, [])

/-- The final header row: original headers followed by the dynamic column
names in first-seen order. -/
def finalHeaders (rows : List Row) (parts : List (Option PartShape)) :
    List String :=
  origHeaders rows ++ (mergeState rows parts).2

/-- Chunk planning: repeatedly slice off the next K elements, as both the
direct worker and the batch creator do.  The source loop does not
terminate for K equal to zero; the model returns no chunks there and all
claims carry the hypothesis that K is at least one. -/
def planChunks (l : List α) (K : Nat) : List (List α) :=
  match l, K with
  | [], _ => []
  | _ :: _, 0 => []
  | a :: t, K + 1 =>
    ((a :: t).take (K + 1)) :: planChunks ((a :: t).drop (K + 1)) (K + 1)
termination_by l.length
decreasing_by
  simp only [List.drop_succ_cons, List.length_drop, List.length_cons]
  omega

/-- Retry classification of a failed completion call: the extracted status
is retriable when it is 429, in the 5xx range, or absent (a falsy status,
for instance a network-level failure with no HTTP status). -/
def retriable (status : Option Nat) : Bool :=
  match status with
  | none => true
  | some s => s == 429 || (decide (500 ≤ s) && decide (s < 600))

/-- The retry loop around one completion call.  call n is the outcome of
the call made with the attempt counter at n; on a failure the loop gives
up (propagating the error status) when the attempt counter has reached
the retry bound or the status is not retriable, and otherwise retries. -/
def runRetry (call : Nat → Except (Option Nat) α) (retries : Nat)
    (attempt : Nat) : Except (Option Nat) α :=
  match call attempt with
  | .ok a => .ok a
  | .error st =>
    if h : retries ≤ attempt ∨ retriable st = false then .error st
    else runRetry call retries (attempt + 1)
termination_by retries - attempt
decreasing_by
  push_neg at h
  omega

/-- The backoff delay computed before incrementing the attempt counter:
min of the cap and base times two to the attempt, times the factor
one half plus a uniform draw r from the unit interval. -/
def delayFor (base cap : ℚ) (attempt : Nat) (r : ℚ) : ℚ :=
  min cap (base * 2 ^ attempt) * (1 / 2 + r)

/-- The last n entries of a list, as slice with a negative start takes. -/
def sliceLast (n : Nat) (l : List α) : List α :=
  l.drop (l.length - n)

/-- The persisted job status record. -/
structure StatusRec where
  status : String
  updatedAt : String
  totalChunks : Int
  concurrency : Int
  completedChunks : Int
  processedRows : Int
  partialFlag : Bool
  lastErrorStatus : Option Int
  events : List (String × String)
deriving DecidableEq, Repr

/-- The extra fields passed to one status write; absent fields are none,
and the partial flag carries the truthiness of the passed value. -/
structure StatusDelta where
  totalChunks : Option Int
  concurrency : Option Int
  completedChunks : Option Int
  processedRows : Option Int
  partialFlag : Bool
  lastErrorStatus : Option Int
deriving DecidableEq, Repr

/-- The status writer as a pure function of the previously persisted
record, the status argument, the delta, the optional event message and
the current timestamp: counters are clamped to never decrease, the
partial flag is or-ed with the previous one, the other fields overwrite
when provided and otherwise keep their previous value, and the event log
is truncated to its last 49 entries before the new entry is appended. -/
def nextStatus (prev : Option StatusRec) (statusArg : String)
    (delta : StatusDelta) (message : Option String) (now : String) :
    StatusRec :=
  let prevEvents := sliceLast 49 ((prev.map (fun p => p.events)).getD [])
  let events :=
    match message with
    | some m => prevEvents ++ [(now, m)]
    | none => prevEvents
  let prevCompleted := (prev.map (fun p => p.completedChunks)).getD 0
  let prevProcessed := (prev.map (fun p => p.processedRows)).getD 0
  { status :=
      if statusArg ≠ "" then statusArg
      else
        match prev with
        | some p => if p.status ≠ "" then p.status else "running"
        | none => "running",
    updatedAt := now,
    totalChunks :=
      (delta.totalChunks).getD ((prev.map (fun p => p.totalChunks)).getD 0),
    concurrency :=
      (delta.concurrency).getD ((prev.map (fun p => p.concurrency)).getD 0),
    completedChunks :=
      max prevCompleted ((delta.completedChunks).getD prevCompleted),
    processedRows :=
      max prevProcessed ((delta.processedRows).getD prevProcessed),
    partialFlag :=
      delta.partialFlag || (prev.map (fun p => p.partialFlag)).getD false,
    lastErrorStatus :=
      match delta.lastErrorStatus with
      | some s => some s
      | none => prev.bind (fun p => p.lastErrorStatus),
    events := events }

/-- Lease time-to-live in milliseconds: fifteen minutes. -/
def LOCK_TTL_MS : Int := 15 * 60 * 1000

/-- Lease heartbeat interval in milliseconds: sixty seconds. -/
def LOCK_HEARTBEAT_MS : Int := 60 * 1000

/-- Lease acquisition: read the current lease record (modelled by its
parsed timestamp, with a missing record read as timestamp zero); when the
timestamp is truthy and younger than the TTL the lock is live and the
call declines, writing nothing; otherwise it writes a fresh record with
the current time and starts the heartbeat.  Returns (acquired, written
timestamp, heartbeat interval). -/
def acquireLock (now : Int) (lock : Option Int) :
    Bool × Option Int × Option Int :=
  let lockTs : Int := lock.getD 0
  let live : Bool := decide (lockTs ≠ 0) && decide (now - lockTs < LOCK_TTL_MS)
  if live then (false, none, none)
  else (true, some now, some LOCK_HEARTBEAT_MS)

/-- Worker-run state: the in-memory parts array (none for slots never
assigned or assigned a null parse) and the durable partial store. -/
structure WState where
  parts : Nat → Option PartShape
  pstore : Nat → Option PartShape

/-- The state with no in-memory part and an empty partial store. -/
def wstateEmpty : WState :=
  { parts := fun _ => none, pstore := fun _ => none }

/-- What a processed chunk persists: the parsed partial, or the empty
object (an invalid shape for the merge) when the parse returned null. -/
def storedVal (o : Option PartShape) : PartShape :=
  o.getD .invalid

/-- Processing chunk idx: record the parse outcome of the deterministic
completion response in the parts array and persist it. -/
def processChunk (oracle : Nat → Option PartShape) (st : WState)
    (idx : Nat) : WState :=
  { parts := fun j => if j = idx then oracle idx else st.parts j,
    pstore := fun j => if j = idx then some (storedVal (oracle idx))
              else st.pstore j }

/-- The resume scan: a chunk index is done when a persisted partial for it
already exists. -/
def doneOf (st : WState) (idx : Nat) : Bool :=
  (st.pstore idx).isSome

/-- The indices the shared cursor hands out, in order: every index below
the total whose chunk is not already done. -/
def claimedIndices (done : Nat → Bool) (total : Nat) : List Nat :=
  (List.range total).filter (fun j => !done j)

/-- One full worker pass: process every claimed chunk in cursor order. -/
def runWorkerLoop (oracle : Nat → Option PartShape) (st0 : WState)
    (total : Nat) : WState :=
  (claimedIndices (doneOf st0) total).foldl (processChunk oracle) st0

/-- The partial the merge uses for a chunk slot: the in-memory part when
truthy, otherwise the persisted one. -/
def mergeInput (st : WState) (idx : Nat) : Option PartShape :=
  match st.parts idx with
  | some p => some p
  | none => st.pstore idx

/-- The final merged table of one worker run from initial state st0. -/
def finalTable (rows : List Row) (oracle : Nat → Option PartShape)
    (st0 : WState) (total : Nat) : List Row × List String :=
  mergeState rows
    ((List.range total).map (mergeInput (runWorkerLoop oracle st0 total)))

/-- Sequencing of the retry-wrapped chunk calls: the first chunk whose
retry loop gives up fatally aborts the whole run with its error. -/
def runAllChunks (call : Nat → Nat → Except (Option Nat) (Option PartShape))
    (retries : Nat) : List Nat → Except (Option Nat) (List (Option PartShape))
  | [] => .ok []
  | idx :: rest =>
    match runRetry (call idx) retries 0 with
    | .error e => .error e
    | .ok p =>
      match runAllChunks call retries rest with
      | .error e => .error e
      | .ok ps => .ok (p :: ps)

/-- The direct-worker job outcome: an error (no artifact) when any chunk
fails fatally, otherwise the merged table, each processed slot merging its
in-memory parse when truthy and the persisted empty object otherwise. -/
def directJobOutcome (rows : List Row)
    (call : Nat → Nat → Except (Option Nat) (Option PartShape))
    (retries total : Nat) : Except (Option Nat) (List Row × List String) :=
  match runAllChunks call retries (List.range total) with
  | .error e => .error e
  | .ok parts => .ok (mergeState rows (parts.map (fun o => some (storedVal o))))

/-- The terminal status the handler writes: failed on any thrown error,
ready after the artifact is written. -/
def jobFinalStatus (r : Except (Option Nat) (List Row × List String)) :
    String :=
  match r with
  | .error _ => "failed"
  | .ok _ => "ready"

/-- The initial worker state after a prior run persisted the partials of
chunks zero up to i with the same deterministic completion responses: no
in-memory part, and the store holding for each index below i exactly
what processing that chunk would persist. -/
def resumedState (oracle : Nat → Option PartShape) (i : Nat) : WState :=
  { parts := fun _ => none,
    pstore := fun idx =>
      if idx < i then some (storedVal (oracle idx)) else none }

/-- One item of a results array in a batch output line: id is the numeric
id when finite, result the result field when a string, str the value the
generic toString fallback yields (empty for a null item). -/
structure BatchItem where
  id : Option Int
  result : Option String
  str : String
deriving DecidableEq, Repr

/-- The shape of the parsed success text of one batch output line: an
object with a results array, a bare array, an object with a bare result
string, or anything else (including text that fails to parse), which
falls back to the raw text. -/
inductive SuccessParse where
  | resultsArr : List BatchItem → SuccessParse
  | plainArr : List BatchItem → SuccessParse
  | singleResult : String → SuccessParse
  | unparsed : SuccessParse
deriving DecidableEq, Repr

/-- One line of the batch output file, after extraction: base is the
numeric custom id (zero when not numeric), successText the output text
(empty when absent), errMsg the extracted error message (empty when
absent), parsedShape the parse of the success text. -/
structure BatchLine where
  base : Int
  successText : String
  errMsg : String
  parsedShape : SuccessParse
deriving DecidableEq, Repr

/-- Write s into the result column of the row at idx when idx is inside
the table, and otherwise leave the table unchanged. -/
def setResultAt (merged : List Row) (idx : Int) (s : String) : List Row :=
  if 0 ≤ idx ∧ idx < (merged.length : Int) then
    merged.set idx.toNat (setCol (merged.getD idx.toNat []) "result" s)
  else merged

/-- The batch assignment loop: each array item resolves its target row by
explicit finite id when present and by base plus position otherwise, and
writes its result string (or its toString fallback) into the result
column of that row when the resolved index is inside the table. -/
def assignByArray (merged : List Row) (arr : List BatchItem) (base : Int) :
    List Row :=
  (arr.enum).foldl
    (fun m ji =>
      setResultAt m ((ji.2.id).getD (base + (ji.1 : Int)))
        ((ji.2.result).getD ji.2.str))
    merged

/-- The whole-chunk error fill of the batch flow: for each offset below
the chunk size, write the error marker into the result column of row
base plus offset.  The source checks only the upper bound; a negative
index writes a non-element array property invisible in the output, which
the model renders as a skip. -/
def fillChunkError (base : Int) (K : Nat) (msg : String)
    (merged : List Row) : List Row :=
  (List.range K).foldl
    (fun m (j : Nat) =>
      let idx := base + (j : Int)
      if 0 ≤ idx ∧ idx < (m.length : Int) then
        m.set idx.toNat
          (setCol (m.getD idx.toNat []) "result" ("ERROR: " ++ msg))
      else m)
    merged

/-- Processing one batch output line over the merged table: on a truthy
success text dispatch on its parsed shape (raw text falling back onto the
base row), otherwise on a truthy error message fill the whole chunk with
the error marker. -/
def processLine (K : Nat) (isErrorOnly : Bool) (merged : List Row)
    (line : BatchLine) : List Row :=
  if isErrorOnly = false ∧ line.successText ≠ "" then
    match line.parsedShape with
    | .resultsArr items => assignByArray merged items line.base
    | .plainArr items => assignByArray merged items line.base
    | .singleResult s => setResultAt merged line.base s
    | .unparsed => setResultAt merged line.base line.successText
  else if line.errMsg ≠ "" then fillChunkError line.base K line.errMsg merged
  else merged

/-- The initial merged table of the batch flow: every original row with an
empty result column appended. -/
def batchInit (rows : List Row) : List Row :=
  rows.map (fun r => setCol r "result" "")

/-- The status endpoint response (ready flag and status string) as a
function of the persisted status record and of the stored final artifact
text: artifact existence is only probed when the record is missing or not
ready, and existence alone already reports readiness. -/
def directStatusResponse (statusJson : Option StatusRec)
    (csvText : Option String) : Bool × String :=
  let csvExists :=
    match statusJson with
    | none => csvText.isSome
    | some s => if s.status ≠ "ready" then csvText.isSome else false
  let ready :=
    (match statusJson with
     | some s => s.status == "ready"
     | none => false) || csvExists
  let status :=
    if ready then "ready"
    else
      match statusJson with
      | some s => if s.status ≠ "" then s.status else "running"
      | none => "running"
  (ready, status)

/-- Concrete five-row table used to witness the merge theorems. -/
def rowsFive : List Row :=
  [[("text", "r0")], [("text", "r1")], [("text", "r2")],
   [("text", "r3")], [("text", "r4")]]

/-- Concrete partial list: one chunk providing id three with a lang
column valued es. -/
def partsLang : List (Option PartShape) :=
  [some (.resultsObj [{ id := some 3,
                        cols := some [("lang", .jstr "es")],
                        result := none }])]

/-- Concrete two-row table used for the malformed-output scenarios. -/
def rowsTwo : List Row :=
  [[("text", "hola")], [("text", "adios")]]

/-- Concrete previous status record for the status-update scenarios. -/
def prevStatusCex : StatusRec :=
  { status := "running", updatedAt := "t0", totalChunks := 4,
    concurrency := 2, completedChunks := 1, processedRows := 200,
    partialFlag := true, lastErrorStatus := none, events := [] }

/-- Concrete status delta whose partial flag is false. -/
def deltaCex : StatusDelta :=
  { totalChunks := none, concurrency := none, completedChunks := none,
    processedRows := none, partialFlag := false, lastErrorStatus := none }
/-- The numeric coercion of a per-row id as the JavaScript guards see
it: not a finite number (NaN, an infinity, or a missing id), a finite
integer, or a finite non-integer carried by its floor lo (the value lies
strictly between lo and lo plus one).  For a finite non-integer x with
floor lo, the comparisons of the guards satisfy x less than zero exactly
when lo is negative, and x at least the length exactly when lo is at
least the length. -/
inductive JsId where
  | nonFinite : JsId
  | intId : Int → JsId
  | fracId : Int → JsId
deriving DecidableEq, Repr

/-- A per-row result of a parsed chunk partial with the id kept in the
full numeric domain (refining ResultItem, which covers only the integer
and non-finite cases). -/
structure ResultItemJs where
  id : JsId
  cols : Option (List (String × JVal))
  result : Option String
deriving DecidableEq, Repr

/-- The integer-id results embed into the full domain: a missing finite
id becomes nonFinite and an integer id stays itself. -/
def ofIntItem (item : ResultItem) : ResultItemJs :=
  { id := match item.id with
          | none => .nonFinite
          | some i => .intId i,
    cols := item.cols,
    result := item.result }

/-- The merge step over the full id domain, with the possible TypeError
made explicit: none models the throw.  A non-finite id and any id whose
value fails the bounds guard are skipped; an integer in-range id behaves
as applyItem; a finite non-integer in-range id passes the guard, and the
first write to the undefined row element throws — unless the item
carries no write at all (an empty cols object, or neither cols nor a
result string), in which case nothing happens. -/
def applyItemChecked (st : List Row × List String) (item : ResultItemJs) :
    Option (List Row × List String) :=
  match item.id with
  | .nonFinite => some st
  | .intId i =>
    if i < 0 ∨ (st.1.length : Int) ≤ i then some st
    else
      match item.cols with
      | some entries => some (entries.foldl (applyEntry i.toNat) st)
      | none =>
        match item.result with
        | some r =>
          some (st.1.set i.toNat (setCol (st.1.getD i.toNat []) "result" r),
            addCol st.2 "result")
        | none => some st
  | .fracId lo =>
    if lo < 0 ∨ (st.1.length : Int) ≤ lo then some st
    else
      match item.cols with
      | some [] => some st
      | some (_ :: _) => none
      | none =>
        match item.result with
        | some _ => none
        | none => some st

/-- One step of the batch assignment loop over the full id domain, with
the possible TypeError made explicit: a non-finite id falls back to base
plus position, an integer id resolves itself (both bounds-checked writes
into the result column), and a finite non-integer id that passes the
bounds guard throws on the undefined row element, while out of range it
is skipped. -/
def assignItemChecked (merged : List Row) (id2 : JsId) (base : Int)
    (jpos : Nat) (val : String) : Option (List Row) :=
  match id2 with
  | .nonFinite => some (setResultAt merged (base + (jpos : Int)) val)
  | .intId i => some (setResultAt merged i val)
  | .fracId lo =>
    if 0 ≤ lo ∧ lo < (merged.length : Int) then none
    else some merged

/-- Concrete three-row table for the fractional-id scenarios. -/
def rowsThreeCex : List Row :=
  [[("text", "a")], [("text", "b")], [("text", "c")]]

/-- Concrete per-row result whose id is the non-integer two and a half
(floor two) and which carries one cols entry. -/
def fracItemCex : ResultItemJs :=
  { id := .fracId 2, cols := some [("x", .jstr "y")], result := none }

theorem find?_map_setKey (row : Row) (k v : String) :
    ((row.map (fun p => if p.1 == k then (k, v) else p)).find?
      (fun p => p.1 == k)) =
    if row.any (fun p => p.1 == k) then some (k, v) else none := by
  rw [List.find?_map]
  have hcomp : ((fun p : String × String => p.1 == k) ∘
      (fun p => if p.1 == k then (k, v) else p)) = fun p => p.1 == k := by
    funext p
    by_cases hp : p.1 = k
    · simp [hp]
    · simp [hp]
  rw [hcomp]
  by_cases h : row.any (fun p => p.1 == k)
  · rw [if_pos h]
    obtain ⟨x, hx, hpx⟩ := List.any_eq_true.mp h
    cases hf : row.find? (fun p => p.1 == k) with
    | none =>
      rw [List.find?_eq_none] at hf
      exact absurd hpx (hf x hx)
    | some y =>
      have hy := List.find?_some hf
      have hyk : y.1 = k := by simpa using hy
      simp [hyk]
  · rw [if_neg h]
    have hn : row.find? (fun p => p.1 == k) = none := by
      rw [List.find?_eq_none]
      intro x hx hpx
      exact h (List.any_eq_true.mpr ⟨x, hx, hpx⟩)
    simp [hn]

theorem find?_map_setKey_ne (row : Row) (k v q : String) (hq : q ≠ k) :
    ((row.map (fun p => if p.1 == k then (k, v) else p)).find?
      (fun p => p.1 == q)) = row.find? (fun p => p.1 == q) := by
  rw [List.find?_map]
  have hcomp : ((fun p : String × String => p.1 == q) ∘
      (fun p => if p.1 == k then (k, v) else p)) = fun p => p.1 == q := by
    funext p
    by_cases hp : p.1 = k
    · have h1 : ¬ (k = q) := fun he => hq he.symm
      simp [hp, h1]
    · simp [hp]
  rw [hcomp]
  cases hf : row.find? (fun p => p.1 == q) with
  | none => simp
  | some y =>
    have hy := List.find?_some hf
    have hyq : y.1 = q := by simpa using hy
    have hne : ¬ y.1 = k := by
      rw [hyq]
      exact hq
    simp [hne]

theorem getCol_setCol_self (row : Row) (k v : String) :
    getCol (setCol row k v) k = some v := by
  unfold setCol getCol
  by_cases h : row.any (fun p => p.1 == k)
  · rw [if_pos h, find?_map_setKey, if_pos h]
    rfl
  · rw [if_neg h, List.find?_append]
    have hn : row.find? (fun p => p.1 == k) = none := by
      rw [List.find?_eq_none]
      intro x hx hpx
      exact h (List.any_eq_true.mpr ⟨x, hx, hpx⟩)
    rw [hn]
    simp

theorem getCol_setCol_ne (row : Row) (k v q : String) (hq : q ≠ k) :
    getCol (setCol row k v) q = getCol row q := by
  unfold setCol getCol
  by_cases h : row.any (fun p => p.1 == k)
  · rw [if_pos h, find?_map_setKey_ne row k v q hq]
  · rw [if_neg h, List.find?_append]
    have h2 : (((k, v) : String × String).1 == q) = false := by
      simp only [beq_eq_false_iff_ne]
      exact fun he => hq he.symm
    simp [h2]

theorem mem_addCol (s : List String) (k : String) : k ∈ addCol s k := by
  unfold addCol
  by_cases h : s.contains k
  · rw [if_pos h]
    simpa using h
  · rw [if_neg h]
    simp

theorem mem_addCol_of_mem (s : List String) (k q : String) (h : k ∈ s) :
    k ∈ addCol s q := by
  unfold addCol
  by_cases hq : s.contains q
  · rwa [if_pos hq]
  · rw [if_neg hq]
    exact List.mem_append_left _ h

theorem getD_set_ne (l : List Row) (n j : Nat) (a : Row) (h : j ≠ n) :
    (l.set n a).getD j [] = l.getD j [] := by
  simp [List.getD_eq_getElem?_getD, List.getElem?_set_ne (fun he => h he.symm)]

theorem getD_set_self (l : List Row) (n : Nat) (a : Row)
    (h : n < l.length) :
    (l.set n a).getD n [] = a := by
  simp [List.getD_eq_getElem?_getD, List.getElem?_set_self h]

theorem applyPartOpt_eq_foldl (st : List Row × List String)
    (op : Option PartShape) :
    applyPartOpt st op = (partItems op).foldl applyItem st := by
  cases op with
  | none => rfl
  | some p => cases p <;> rfl

theorem applyEntry_len (n : Nat) (st : List Row × List String)
    (kv : String × JVal) : (applyEntry n st kv).1.length = st.1.length := by
  simp [applyEntry]

theorem foldl_applyEntry_len (n : Nat) :
    ∀ (entries : List (String × JVal)) (st : List Row × List String),
    ((entries.foldl (applyEntry n) st)).1.length = st.1.length := by
  intro entries
  induction entries with
  | nil => intro st; rfl
  | cons e rest ih =>
    intro st
    rw [List.foldl_cons, ih, applyEntry_len]

theorem applyItem_len (st : List Row × List String) (item : ResultItem) :
    (applyItem st item).1.length = st.1.length := by
  obtain ⟨oid, ocols, ores⟩ := item
  cases oid with
  | none => rfl
  | some i =>
    simp only [applyItem]
    by_cases hb : i < 0 ∨ (st.1.length : Int) ≤ i
    · rw [if_pos hb]
    · rw [if_neg hb]
      cases ocols with
      | some entries => exact foldl_applyEntry_len _ entries st
      | none =>
        cases ores with
        | some r => simp
        | none => rfl

theorem foldl_applyItem_len :
    ∀ (items : List ResultItem) (st : List Row × List String),
    ((items.foldl applyItem st)).1.length = st.1.length := by
  intro items
  induction items with
  | nil => intro st; rfl
  | cons item rest ih =>
    intro st
    rw [List.foldl_cons, ih, applyItem_len]

theorem applyPartOpt_len (st : List Row × List String)
    (op : Option PartShape) :
    (applyPartOpt st op).1.length = st.1.length := by
  rw [applyPartOpt_eq_foldl]
  exact foldl_applyItem_len _ st

theorem foldl_applyPartOpt_len :
    ∀ (parts : List (Option PartShape)) (st : List Row × List String),
    ((parts.foldl applyPartOpt st)).1.length = st.1.length := by
  intro parts
  induction parts with
  | nil => intro st; rfl
  | cons op rest ih =>
    intro st
    rw [List.foldl_cons, ih, applyPartOpt_len]

theorem mergeState_len (rows : List Row) (parts : List (Option PartShape)) :
    (mergeState rows parts).1.length = rows.length := by
  unfold mergeState
  rw [foldl_applyPartOpt_len]

theorem getD_set_out (l : List Row) (n : Nat) (a : Row)
    (h : l.length ≤ n) :
    ∀ j, (l.set n a).getD j [] = l.getD j [] := by
  intro j
  rw [List.set_eq_of_length_le h]

theorem foldl_applyEntry_rowAt_ne (n j : Nat) (h : j ≠ n) :
    ∀ (entries : List (String × JVal)) (st : List Row × List String),
    ((entries.foldl (applyEntry n) st)).1.getD j [] = st.1.getD j [] := by
  intro entries
  induction entries with
  | nil => intro st; rfl
  | cons e rest ih =>
    intro st
    rw [List.foldl_cons, ih]
    exact getD_set_ne _ _ _ _ h

theorem applyItem_rowAt_ne (st : List Row × List String) (item : ResultItem)
    (j : Nat) (h : item.id ≠ some (j : Int)) :
    (applyItem st item).1.getD j [] = st.1.getD j [] := by
  obtain ⟨oid, ocols, ores⟩ := item
  cases oid with
  | none => rfl
  | some i =>
    simp only [applyItem]
    by_cases hb : i < 0 ∨ (st.1.length : Int) ≤ i
    · rw [if_pos hb]
    · rw [if_neg hb]
      push_neg at hb
      have hi0 : 0 ≤ i := hb.1
      have hij : i.toNat ≠ j := by
        intro he
        apply h
        simp only [Option.some.injEq]
        rw [← he, Int.toNat_of_nonneg hi0]
      have hji : j ≠ i.toNat := fun he => hij he.symm
      cases ocols with
      | some entries => exact foldl_applyEntry_rowAt_ne _ _ hji entries st
      | none =>
        cases ores with
        | some r => exact getD_set_ne _ _ _ _ hji
        | none => rfl

theorem foldl_applyItem_rowAt_ne (j : Nat) :
    ∀ (items : List ResultItem) (st : List Row × List String),
    (∀ item ∈ items, item.id ≠ some (j : Int)) →
    ((items.foldl applyItem st)).1.getD j [] = st.1.getD j [] := by
  intro items
  induction items with
  | nil => intro st _; rfl
  | cons item rest ih =>
    intro st hall
    rw [List.foldl_cons, ih _ (fun it hit => hall it (List.mem_cons_of_mem _ hit)),
      applyItem_rowAt_ne _ _ _ (hall item (List.mem_cons_self _ _))]

theorem applyPartOpt_rowAt_ne (st : List Row × List String)
    (op : Option PartShape) (j : Nat)
    (h : ∀ item ∈ partItems op, item.id ≠ some (j : Int)) :
    (applyPartOpt st op).1.getD j [] = st.1.getD j [] := by
  rw [applyPartOpt_eq_foldl]
  exact foldl_applyItem_rowAt_ne j _ st h

theorem foldl_applyPartOpt_rowAt_ne (j : Nat) :
    ∀ (parts : List (Option PartShape)) (st : List Row × List String),
    (∀ op ∈ parts, ∀ item ∈ partItems op, item.id ≠ some (j : Int)) →
    ((parts.foldl applyPartOpt st)).1.getD j [] = st.1.getD j [] := by
  intro parts
  induction parts with
  | nil => intro st _; rfl
  | cons op rest ih =>
    intro st hall
    rw [List.foldl_cons, ih _ (fun o ho => hall o (List.mem_cons_of_mem _ ho)),
      applyPartOpt_rowAt_ne _ _ _ (hall op (List.mem_cons_self _ _))]

theorem mem_colSet_applyEntry (n : Nat) (st : List Row × List String)
    (kv : String × JVal) (k : String) (h : k ∈ st.2) :
    k ∈ (applyEntry n st kv).2 :=
  mem_addCol_of_mem _ _ _ h

theorem mem_colSet_foldl_applyEntry (n : Nat) (k : String) :
    ∀ (entries : List (String × JVal)) (st : List Row × List String),
    k ∈ st.2 → k ∈ ((entries.foldl (applyEntry n) st)).2 := by
  intro entries
  induction entries with
  | nil => intro st h; exact h
  | cons e rest ih =>
    intro st h
    rw [List.foldl_cons]
    exact ih _ (mem_colSet_applyEntry n st e k h)

theorem mem_colSet_applyItem (st : List Row × List String)
    (item : ResultItem) (k : String) (h : k ∈ st.2) :
    k ∈ (applyItem st item).2 := by
  obtain ⟨oid, ocols, ores⟩ := item
  cases oid with
  | none => exact h
  | some i =>
    simp only [applyItem]
    by_cases hb : i < 0 ∨ (st.1.length : Int) ≤ i
    · rw [if_pos hb]; exact h
    · rw [if_neg hb]
      cases ocols with
      | some entries => exact mem_colSet_foldl_applyEntry _ _ entries st h
      | none =>
        cases ores with
        | some r => exact mem_addCol_of_mem _ _ _ h
        | none => exact h

theorem mem_colSet_foldl_applyItem (k : String) :
    ∀ (items : List ResultItem) (st : List Row × List String),
    k ∈ st.2 → k ∈ ((items.foldl applyItem st)).2 := by
  intro items
  induction items with
  | nil => intro st h; exact h
  | cons item rest ih =>
    intro st h
    rw [List.foldl_cons]
    exact ih _ (mem_colSet_applyItem st item k h)

theorem mem_colSet_applyPartOpt (st : List Row × List String)
    (op : Option PartShape) (k : String) (h : k ∈ st.2) :
    k ∈ (applyPartOpt st op).2 := by
  rw [applyPartOpt_eq_foldl]
  exact mem_colSet_foldl_applyItem k _ st h

theorem mem_colSet_foldl_applyPartOpt (k : String) :
    ∀ (parts : List (Option PartShape)) (st : List Row × List String),
    k ∈ st.2 → k ∈ ((parts.foldl applyPartOpt st)).2 := by
  intro parts
  induction parts with
  | nil => intro st h; exact h
  | cons op rest ih =>
    intro st h
    rw [List.foldl_cons]
    exact ih _ (mem_colSet_applyPartOpt st op k h)

theorem foldl_applyEntry_c (c v : String) (t n : Nat) :
    ∀ (entries : List (String × JVal)) (st : List Row × List String),
    (∀ e ∈ entries, e.1 = c → (n = t ∧ jvalToString e.2 = v)) →
    ((∀ j, j ≠ t →
        getCol (((entries.foldl (applyEntry n) st)).1.getD j []) c
          = getCol (st.1.getD j []) c) ∧
     (getCol (((entries.foldl (applyEntry n) st)).1.getD t []) c
        = getCol (st.1.getD t []) c ∨
      getCol (((entries.foldl (applyEntry n) st)).1.getD t []) c = some v)) := by
  intro entries
  induction entries with
  | nil => intro st _; exact ⟨fun j _ => rfl, Or.inl rfl⟩
  | cons e rest ih =>
    intro st hall
    rw [List.foldl_cons]
    obtain ⟨ihA, ihB⟩ := ih (applyEntry n st e)
      (fun x hx => hall x (List.mem_cons_of_mem _ hx))
    have hstep_ne : ∀ j, j ≠ t →
        getCol ((applyEntry n st e).1.getD j []) c
          = getCol (st.1.getD j []) c := by
      intro j hj
      by_cases hjn : j = n
      · subst hjn
        have hec : e.1 ≠ c := by
          intro he
          exact hj ((hall e (List.mem_cons_self _ _) he).1)
        by_cases hlt : j < st.1.length
        · show getCol ((st.1.set j _).getD j []) c = _
          rw [getD_set_self _ _ _ hlt]
          exact getCol_setCol_ne _ _ _ _ (fun he => hec he.symm)
        · show getCol ((st.1.set j _).getD j []) c = _
          rw [getD_set_out _ _ _ (Nat.le_of_not_lt hlt) j]
      · show getCol ((st.1.set n _).getD j []) c = _
        rw [getD_set_ne _ _ _ _ hjn]
    have hstep_t :
        getCol ((applyEntry n st e).1.getD t []) c
          = getCol (st.1.getD t []) c ∨
        getCol ((applyEntry n st e).1.getD t []) c = some v := by
      by_cases hnt : n = t
      · subst hnt
        by_cases hlt : n < st.1.length
        · by_cases hec : e.1 = c
          · right
            show getCol ((st.1.set n _).getD n []) c = some v
            rw [getD_set_self _ _ _ hlt]
            have hv := (hall e (List.mem_cons_self _ _) hec).2
            rw [hec, getCol_setCol_self, hv]
          · left
            show getCol ((st.1.set n _).getD n []) c = _
            rw [getD_set_self _ _ _ hlt]
            exact getCol_setCol_ne _ _ _ _ (fun he => hec he.symm)
        · left
          show getCol ((st.1.set n _).getD n []) c = _
          rw [getD_set_out _ _ _ (Nat.le_of_not_lt hlt) n]
      · left
        show getCol ((st.1.set n _).getD t []) c = _
        rw [getD_set_ne _ _ _ _ (fun he => hnt he.symm)]
    refine ⟨?_, ?_⟩
    · intro j hj
      rw [ihA j hj, hstep_ne j hj]
    · rcases ihB with h1 | h1
      · rw [h1]
        exact hstep_t
      · exact Or.inr h1

theorem applyItem_c (c v : String) (t : Nat) (hc : c ≠ "result")
    (st : List Row × List String) (item : ResultItem)
    (hitem : ∀ e ∈ (item.cols.getD []), e.1 = c →
      (item.id = some (t : Int) ∧ jvalToString e.2 = v)) :
    ((∀ j, j ≠ t → getCol ((applyItem st item).1.getD j []) c
        = getCol (st.1.getD j []) c) ∧
     (getCol ((applyItem st item).1.getD t []) c
        = getCol (st.1.getD t []) c ∨
      getCol ((applyItem st item).1.getD t []) c = some v)) := by
  obtain ⟨oid, ocols, ores⟩ := item
  cases oid with
  | none => exact ⟨fun j _ => rfl, Or.inl rfl⟩
  | some i =>
    simp only [applyItem]
    by_cases hb : i < 0 ∨ (st.1.length : Int) ≤ i
    · rw [if_pos hb]; exact ⟨fun j _ => rfl, Or.inl rfl⟩
    · rw [if_neg hb]
      push_neg at hb
      cases ocols with
      | some entries =>
        apply foldl_applyEntry_c c v t i.toNat entries st
        intro e he hec
        obtain ⟨hid, hv⟩ := hitem e he hec
        refine ⟨?_, hv⟩
        have hit : i = (t : Int) := by simpa using hid
        rw [hit]
        exact Int.toNat_natCast t
      | none =>
        cases ores with
        | some r =>
          have hlt : i.toNat < st.1.length := by omega
          have hrow : ∀ j,
              getCol ((st.1.set i.toNat
                (setCol (st.1.getD i.toNat []) "result" r)).getD j []) c
                = getCol (st.1.getD j []) c := by
            intro j
            by_cases hj : j = i.toNat
            · subst hj
              rw [getD_set_self _ _ _ hlt]
              exact getCol_setCol_ne _ _ _ _ hc
            · rw [getD_set_ne _ _ _ _ hj]
          exact ⟨fun j _ => hrow j, Or.inl (hrow t)⟩
        | none => exact ⟨fun j _ => rfl, Or.inl rfl⟩

theorem foldl_applyItem_c (c v : String) (t : Nat) (hc : c ≠ "result") :
    ∀ (items : List ResultItem) (st : List Row × List String),
    (∀ item ∈ items, ∀ e ∈ (item.cols.getD []), e.1 = c →
      (item.id = some (t : Int) ∧ jvalToString e.2 = v)) →
    ((∀ j, j ≠ t →
        getCol (((items.foldl applyItem st)).1.getD j []) c
          = getCol (st.1.getD j []) c) ∧
     (getCol (((items.foldl applyItem st)).1.getD t []) c
        = getCol (st.1.getD t []) c ∨
      getCol (((items.foldl applyItem st)).1.getD t []) c = some v)) := by
  intro items
  induction items with
  | nil => intro st _; exact ⟨fun j _ => rfl, Or.inl rfl⟩
  | cons item rest ih =>
    intro st hall
    rw [List.foldl_cons]
    obtain ⟨ihA, ihB⟩ := ih (applyItem st item)
      (fun x hx => hall x (List.mem_cons_of_mem _ hx))
    obtain ⟨hsA, hsB⟩ := applyItem_c c v t hc st item
      (hall item (List.mem_cons_self _ _))
    refine ⟨?_, ?_⟩
    · intro j hj
      rw [ihA j hj, hsA j hj]
    · rcases ihB with h1 | h1
      · rw [h1]
        exact hsB
      · exact Or.inr h1

theorem applyPartOpt_c (c v : String) (t : Nat) (hc : c ≠ "result")
    (st : List Row × List String) (op : Option PartShape)
    (hpart : ∀ item ∈ partItems op, ∀ e ∈ (item.cols.getD []), e.1 = c →
      (item.id = some (t : Int) ∧ jvalToString e.2 = v)) :
    ((∀ j, j ≠ t → getCol ((applyPartOpt st op).1.getD j []) c
        = getCol (st.1.getD j []) c) ∧
     (getCol ((applyPartOpt st op).1.getD t []) c
        = getCol (st.1.getD t []) c ∨
      getCol ((applyPartOpt st op).1.getD t []) c = some v)) := by
  rw [applyPartOpt_eq_foldl]
  exact foldl_applyItem_c c v t hc _ st hpart

theorem foldl_applyPartOpt_c (c v : String) (t : Nat) (hc : c ≠ "result") :
    ∀ (parts : List (Option PartShape)) (st : List Row × List String),
    (∀ op ∈ parts, ∀ item ∈ partItems op, ∀ e ∈ (item.cols.getD []),
      e.1 = c → (item.id = some (t : Int) ∧ jvalToString e.2 = v)) →
    ((∀ j, j ≠ t →
        getCol (((parts.foldl applyPartOpt st)).1.getD j []) c
          = getCol (st.1.getD j []) c) ∧
     (getCol (((parts.foldl applyPartOpt st)).1.getD t []) c
        = getCol (st.1.getD t []) c ∨
      getCol (((parts.foldl applyPartOpt st)).1.getD t []) c = some v)) := by
  intro parts
  induction parts with
  | nil => intro st _; exact ⟨fun j _ => rfl, Or.inl rfl⟩
  | cons op rest ih =>
    intro st hall
    rw [List.foldl_cons]
    obtain ⟨ihA, ihB⟩ := ih (applyPartOpt st op)
      (fun x hx => hall x (List.mem_cons_of_mem _ hx))
    obtain ⟨hsA, hsB⟩ := applyPartOpt_c c v t hc st op
      (hall op (List.mem_cons_self _ _))
    refine ⟨?_, ?_⟩
    · intro j hj
      rw [ihA j hj, hsA j hj]
    · rcases ihB with h1 | h1
      · rw [h1]
        exact hsB
      · exact Or.inr h1

theorem foldl_applyEntry_sets (c v : String) (t : Nat) :
    ∀ (entries : List (String × JVal)) (st : List Row × List String),
    (∀ e ∈ entries, e.1 = c → jvalToString e.2 = v) →
    (∃ e ∈ entries, e.1 = c) →
    t < st.1.length →
    (getCol (((entries.foldl (applyEntry t) st)).1.getD t []) c = some v ∧
     c ∈ ((entries.foldl (applyEntry t) st)).2) := by
  intro entries
  induction entries with
  | nil =>
    intro st _ hex _
    exact absurd hex (by simp)
  | cons e rest ih =>
    intro st hall hex hlen
    rw [List.foldl_cons]
    by_cases hec : e.1 = c
    · have hst : getCol ((applyEntry t st e).1.getD t []) c = some v := by
        show getCol ((st.1.set t _).getD t []) c = some v
        rw [getD_set_self _ _ _ hlen, hec, getCol_setCol_self,
          hall e (List.mem_cons_self _ _) hec]
      have hmem : c ∈ (applyEntry t st e).2 := by
        show c ∈ addCol st.2 e.1
        rw [hec]
        exact mem_addCol _ _
      obtain ⟨_, hB⟩ := foldl_applyEntry_c c v t t rest (applyEntry t st e)
        (fun x hx hxc => ⟨rfl, hall x (List.mem_cons_of_mem _ hx) hxc⟩)
      refine ⟨?_, mem_colSet_foldl_applyEntry t c rest _ hmem⟩
      rcases hB with h1 | h1
      · rw [h1, hst]
      · exact h1
    · have hex2 : ∃ x ∈ rest, x.1 = c := by
        rcases hex with ⟨x, hx, hxc⟩
        rcases List.mem_cons.mp hx with h1 | h1
        · rw [h1] at hxc
          exact absurd hxc hec
        · exact ⟨x, h1, hxc⟩
      exact ih _ (fun x hx => hall x (List.mem_cons_of_mem _ hx)) hex2
        (by rw [applyEntry_len]; exact hlen)

theorem applyItem_sets (c v : String) (t : Nat)
    (st : List Row × List String) (item : ResultItem)
    (hid : item.id = some (t : Int))
    (hlen : t < st.1.length)
    (hex : ∃ e ∈ (item.cols.getD []), e.1 = c)
    (hvals : ∀ e ∈ (item.cols.getD []), e.1 = c → jvalToString e.2 = v) :
    (getCol ((applyItem st item).1.getD t []) c = some v ∧
     c ∈ (applyItem st item).2) := by
  obtain ⟨oid, ocols, ores⟩ := item
  cases ocols with
  | none => exact absurd hex (by simp)
  | some entries =>
    cases oid with
    | none => exact absurd hid (by simp)
    | some i =>
      have hit : i = (t : Int) := by simpa using hid
      subst hit
      simp only [applyItem]
      have hb : ¬ (((t : Nat) : Int) < 0 ∨ (st.1.length : Int) ≤ ((t : Nat) : Int)) := by
        omega
      rw [if_neg hb]
      have htn : ((t : Nat) : Int).toNat = t := Int.toNat_natCast t
      rw [htn]
      exact foldl_applyEntry_sets c v t entries st hvals hex hlen

theorem getCol_init_none (rows : List Row) (c : String)
    (horig : ∀ row ∈ rows, getCol row c = none) :
    ∀ j, getCol (rows.getD j []) c = none := by
  intro j
  by_cases hj : j < rows.length
  · have h1 : rows.getD j [] = rows[j] := by
      simp [List.getD_eq_getElem?_getD, List.getElem?_eq_getElem hj]
    rw [h1]
    exact horig _ (List.getElem_mem hj)
  · have h1 : rows.getD j [] = [] := by
      simp [List.getD_eq_getElem?_getD,
        List.getElem?_eq_none (Nat.le_of_not_lt hj)]
    rw [h1]
    rfl

/-- C1: merge correctness of the reconciler.  If some partial provides a
per-row result with id t and a cols entry for column c valued v, and no
other per-row result anywhere mentions column c (and c is not an original
column of the table), then the merged table keeps one row per original
row, carries v in column c of row t and the empty string in column c of
every other row, records c in the dynamic column set, and the final
header is the original headers followed by the dynamic headers in
first-seen order. -/
theorem direct_merge_single_column
    (rows : List Row) (parts : List (Option PartShape)) (c v : String)
    (t : Nat)
    (hc : c ≠ "result")
    (ht : t < rows.length)
    (horig : ∀ row ∈ rows, getCol row c = none)
    (honly : ∀ op ∈ parts, ∀ item ∈ partItems op,
      ∀ e ∈ (item.cols.getD []), e.1 = c →
        (item.id = some (t : Int) ∧ jvalToString e.2 = v))
    (hex : ∃ op ∈ parts, ∃ item ∈ partItems op,
      item.id = some (t : Int) ∧ ∃ e ∈ (item.cols.getD []), e.1 = c) :
    (mergeState rows parts).1.length = rows.length ∧
    colValue ((mergeState rows parts).1.getD t []) c = v ∧
    (∀ j, j < rows.length → j ≠ t →
      colValue ((mergeState rows parts).1.getD j []) c = "") ∧
    c ∈ (mergeState rows parts).2 ∧
    finalHeaders rows parts = origHeaders rows ++ (mergeState rows parts).2 := by
  obtain ⟨op, hop, item, hitem, hid, hexe⟩ := hex
  obtain ⟨l1, l2, rfl⟩ := List.append_of_mem hop
  have hmemop : op ∈ l1 ++ op :: l2 :=
    List.mem_append_right _ (List.mem_cons_self _ _)
  have hmem1 : ∀ x ∈ l1, x ∈ l1 ++ op :: l2 :=
    fun x hx => List.mem_append_left _ hx
  have hmem2 : ∀ x ∈ l2, x ∈ l1 ++ op :: l2 :=
    fun x hx => List.mem_append_right _ (List.mem_cons_of_mem _ hx)
  have hmerge : mergeState rows (l1 ++ op :: l2)
      = l2.foldl applyPartOpt
          (applyPartOpt (l1.foldl applyPartOpt (rows, [])) op) := by
    unfold mergeState
    rw [List.foldl_append, List.foldl_cons]
  obtain ⟨i1, i2, hisplit⟩ := List.append_of_mem hitem
  have hmemi1 : ∀ x ∈ i1, x ∈ partItems op := by
    intro x hx
    rw [hisplit]
    exact List.mem_append_left _ hx
  have hmemi2 : ∀ x ∈ i2, x ∈ partItems op := by
    intro x hx
    rw [hisplit]
    exact List.mem_append_right _ (List.mem_cons_of_mem _ hx)
  have hpart : applyPartOpt (l1.foldl applyPartOpt (rows, [])) op
      = i2.foldl applyItem
          (applyItem (i1.foldl applyItem (l1.foldl applyPartOpt (rows, []))) item) := by
    rw [applyPartOpt_eq_foldl, hisplit, List.foldl_append, List.foldl_cons]
  have h1len : (l1.foldl applyPartOpt
      ((rows, []) : List Row × List String)).1.length = rows.length :=
    foldl_applyPartOpt_len l1 _
  have h2len : (i1.foldl applyItem
      (l1.foldl applyPartOpt ((rows, []) : List Row × List String))).1.length
      = rows.length := by
    rw [foldl_applyItem_len, h1len]
  obtain ⟨h1A, _⟩ := foldl_applyPartOpt_c c v t hc l1 (rows, [])
    (fun o ho => honly o (hmem1 o ho))
  obtain ⟨h2A, _⟩ := foldl_applyItem_c c v t hc i1
    (l1.foldl applyPartOpt (rows, []))
    (fun x hx => honly op hmemop x (hmemi1 x hx))
  have hvals : ∀ e ∈ (item.cols.getD []), e.1 = c → jvalToString e.2 = v :=
    fun e he hec => (honly op hmemop item hitem e he hec).2
  obtain ⟨hset, hsetmem⟩ := applyItem_sets c v t
    (i1.foldl applyItem (l1.foldl applyPartOpt (rows, []))) item hid
    (by rw [h2len]; exact ht) hexe hvals
  obtain ⟨h3A, _⟩ := applyItem_c c v t hc
    (i1.foldl applyItem (l1.foldl applyPartOpt (rows, []))) item
    (honly op hmemop item hitem)
  obtain ⟨h4A, h4B⟩ := foldl_applyItem_c c v t hc i2
    (applyItem (i1.foldl applyItem (l1.foldl applyPartOpt (rows, []))) item)
    (fun x hx => honly op hmemop x (hmemi2 x hx))
  obtain ⟨h5A, h5B⟩ := foldl_applyPartOpt_c c v t hc l2
    (applyPartOpt (l1.foldl applyPartOpt (rows, [])) op)
    (fun o ho => honly o (hmem2 o ho))
  have hpartv : getCol ((applyPartOpt (l1.foldl applyPartOpt (rows, []))
      op).1.getD t []) c = some v := by
    rw [hpart]
    rcases h4B with h | h
    · rw [h, hset]
    · exact h
  have hfinalv : getCol ((mergeState rows (l1 ++ op :: l2)).1.getD t []) c
      = some v := by
    rw [hmerge]
    rcases h5B with h | h
    · rw [h, hpartv]
    · exact h
  refine ⟨?_, ?_, ?_, ?_, rfl⟩
  · rw [hmerge, foldl_applyPartOpt_len, applyPartOpt_len, h1len]
  · rw [colValue, hfinalv]
    rfl
  · intro j hjlen hjt
    have hchain : getCol ((mergeState rows (l1 ++ op :: l2)).1.getD j []) c
        = none := by
      rw [hmerge, h5A j hjt, hpart, h4A j hjt, h3A j hjt, h2A j hjt,
        h1A j hjt]
      exact getCol_init_none rows c horig j
    rw [colValue, hchain]
    rfl
  · rw [hmerge]
    apply mem_colSet_foldl_applyPartOpt
    rw [hpart]
    exact mem_colSet_foldl_applyItem c i2 _ hsetmem

/-- Witness for C1: on a concrete five-row table with a single partial
providing a lang column valued es at row three, the merged table carries
es at row three, the empty string elsewhere, and a lang dynamic header. -/
theorem direct_merge_single_column_witness :
    colValue ((mergeState rowsFive partsLang).1.getD 3 []) "lang" = "es" ∧
    colValue ((mergeState rowsFive partsLang).1.getD 0 []) "lang" = "" ∧
    "lang" ∈ (mergeState rowsFive partsLang).2 ∧
    (mergeState rowsFive partsLang).1.length = rowsFive.length := by
  have h := direct_merge_single_column rowsFive partsLang "lang" "es" 3
    (by decide) (by decide) (by decide) (by decide) (by decide)
  exact ⟨h.2.1, h.2.2.1 0 (by decide) (by decide), h.2.2.2.1, h.1⟩

theorem applyItem_skip (st : List Row × List String) (item : ResultItem)
    (h : item.id = none ∨ ∃ i, item.id = some i ∧
      (i < 0 ∨ (st.1.length : Int) ≤ i)) :
    applyItem st item = st := by
  obtain ⟨oid, ocols, ores⟩ := item
  rcases h with h | ⟨i, hi, hb⟩
  · have he : oid = none := h
    subst he
    rfl
  · have he : oid = some i := hi
    subst he
    simp only [applyItem]
    rw [if_pos hb]

theorem setResultAt_len (merged : List Row) (idx : Int) (s : String) :
    (setResultAt merged idx s).length = merged.length := by
  unfold setResultAt
  by_cases h : 0 ≤ idx ∧ idx < (merged.length : Int)
  · rw [if_pos h]
    simp
  · rw [if_neg h]

theorem assignByArray_len (merged : List Row) (arr : List BatchItem)
    (base : Int) :
    (assignByArray merged arr base).length = merged.length := by
  unfold assignByArray
  generalize arr.enum = l
  induction l generalizing merged with
  | nil => rfl
  | cons ji rest ih =>
    rw [List.foldl_cons, ih, setResultAt_len]

theorem planChunks_flatten (K : Nat) (hK : 1 ≤ K) :
    ∀ (n : Nat) (l : List α), l.length ≤ n → (planChunks l K).flatten = l := by
  intro n
  induction n with
  | zero =>
    intro l hl
    have he : l = [] := List.eq_nil_of_length_eq_zero (Nat.le_zero.mp hl)
    subst he
    simp [planChunks]
  | succ n ih =>
    intro l hl
    cases l with
    | nil => simp [planChunks]
    | cons a t =>
      cases K with
      | zero => exact absurd hK (by simp)
      | succ K2 =>
        have hlen : ((a :: t).drop (K2 + 1)).length ≤ n := by
          simp only [List.length_drop, List.length_cons]
          simp only [List.length_cons] at hl
          omega
        rw [planChunks, List.flatten_cons, ih _ hlen, List.take_append_drop]

theorem ceil_div_step (N K : Nat) (hN : 1 ≤ N) (hK : 1 ≤ K) :
    (N - K + K - 1) / K + 1 = (N + K - 1) / K := by
  rcases le_or_lt N K with h | h
  · have h1 : N - K = 0 := Nat.sub_eq_zero_of_le h
    rw [h1]
    have h2 : (0 + K - 1) / K = 0 := Nat.div_eq_of_lt (by omega)
    have h3 : (N + K - 1) / K = 1 := by
      apply Nat.div_eq_of_lt_le
      · omega
      · omega
    rw [h2, h3]
  · rw [show N - K + K - 1 = N - 1 by omega, show N + K - 1 = (N - 1) + K by omega,
      Nat.add_div_right _ (by omega : 0 < K)]

theorem planChunks_length (K : Nat) (hK : 1 ≤ K) :
    ∀ (n : Nat) (l : List α), l.length ≤ n →
    (planChunks l K).length = (l.length + K - 1) / K := by
  intro n
  induction n with
  | zero =>
    intro l hl
    have he : l = [] := List.eq_nil_of_length_eq_zero (Nat.le_zero.mp hl)
    subst he
    have hp : planChunks ([] : List α) K = [] := by simp [planChunks]
    rw [hp]
    simp only [List.length_nil]
    symm
    apply Nat.div_eq_of_lt
    omega
  | succ n ih =>
    intro l hl
    cases l with
    | nil =>
      have hp : planChunks ([] : List α) K = [] := by simp [planChunks]
      rw [hp]
      simp only [List.length_nil]
      symm
      apply Nat.div_eq_of_lt
      omega
    | cons a t =>
      cases K with
      | zero => exact absurd hK (by simp)
      | succ K2 =>
        have hlen : ((a :: t).drop (K2 + 1)).length ≤ n := by
          simp only [List.length_drop, List.length_cons]
          simp only [List.length_cons] at hl
          omega
        rw [planChunks]
        simp only [List.length_cons]
        rw [ih _ hlen]
        simp only [List.length_drop, List.length_cons]
        exact ceil_div_step (t.length + 1) (K2 + 1) (by omega) (by omega)

theorem planChunks_getElem? (K : Nat) (hK : 1 ≤ K) :
    ∀ (i : Nat) (l : List α),
    (planChunks l K)[i]? =
      if i * K < l.length then some ((l.drop (i * K)).take K) else none := by
  intro i
  induction i with
  | zero =>
    intro l
    cases l with
    | nil => simp [planChunks]
    | cons a t =>
      cases K with
      | zero => exact absurd hK (by simp)
      | succ K2 =>
        rw [planChunks]
        simp
  | succ i ih =>
    intro l
    cases l with
    | nil => simp [planChunks]
    | cons a t =>
      cases K with
      | zero => exact absurd hK (by simp)
      | succ K2 =>
        rw [planChunks, List.getElem?_cons_succ, ih ((a :: t).drop (K2 + 1)),
          List.drop_drop]
        have hd : K2 + 1 + i * (K2 + 1) = (i + 1) * (K2 + 1) := by ring
        have hmul : (i + 1) * (K2 + 1) = i * (K2 + 1) + (K2 + 1) := by ring
        have hc : (i * (K2 + 1) < ((a :: t).drop (K2 + 1)).length) ↔
            ((i + 1) * (K2 + 1) < (a :: t).length) := by
          simp only [List.length_drop, List.length_cons]
          omega
        rw [hd]
        by_cases h : (i + 1) * (K2 + 1) < (a :: t).length
        · rw [if_pos (hc.mpr h), if_pos h]
        · rw [if_neg (fun hh => h (hc.mp hh)), if_neg h]

theorem drop_range_eq (N m : Nat) :
    (List.range N).drop m = List.range' m (N - m) := by
  apply List.ext_getElem?
  intro i
  rw [List.getElem?_drop]
  by_cases h : m + i < N
  · rw [List.getElem?_range h,
      List.getElem?_range' m 1 (show i < N - m by omega)]
    simp
  · rw [List.getElem?_eq_none (by simpa using Nat.le_of_not_lt h),
      List.getElem?_eq_none]
    simp only [List.length_range']
    omega

theorem take_range'_eq (s n m : Nat) :
    (List.range' s n).take m = List.range' s (min m n) := by
  apply List.ext_getElem?
  intro i
  by_cases h1 : i < m ∧ i < n
  · rw [List.getElem?_take, if_pos h1.1,
      List.getElem?_range' s 1 h1.2,
      List.getElem?_range' s 1 (show i < min m n by omega)]
  · rw [List.getElem?_take]
    by_cases h2 : i < m
    · have h3 : ¬ i < n := fun hh => h1 ⟨h2, hh⟩
      rw [if_pos h2, List.getElem?_eq_none, List.getElem?_eq_none]
      · simp only [List.length_range']
        omega
      · simp only [List.length_range']
        omega
    · rw [if_neg h2]
      symm
      rw [List.getElem?_eq_none]
      simp only [List.length_range']
      omega

theorem chunkRange (N K i : Nat) :
    ((List.range N).drop (i * K)).take K =
      List.range' (i * K) (min ((i + 1) * K) N - i * K) := by
  rw [drop_range_eq, take_range'_eq]
  congr 1
  have : (i + 1) * K = i * K + K := by ring
  omega

/-- C4: for every row count N and chunk size K at least one, chunk
planning produces exactly ceiling of N over K chunks, chunk i holds the
row ids from i times K up to the minimum of (i plus one) times K and N,
and the chunks concatenate back to the full id range (so they cover it
with no gaps and no overlaps). -/
theorem chunk_planning_partitions (N K : Nat) (hK : 1 ≤ K) :
    (planChunks (List.range N) K).length = (N + K - 1) / K ∧
    (∀ i, (planChunks (List.range N) K)[i]? =
      if i * K < N then
        some (List.range' (i * K) (min ((i + 1) * K) N - i * K))
      else none) ∧
    (planChunks (List.range N) K).flatten = List.range N := by
  refine ⟨?_, ?_, planChunks_flatten K hK _ _ (le_refl _)⟩
  · rw [planChunks_length K hK _ _ (le_refl _), List.length_range]
  · intro i
    rw [planChunks_getElem? K hK i, List.length_range]
    by_cases h : i * K < N
    · rw [if_pos h, if_pos h, chunkRange]
    · rw [if_neg h, if_neg h]

/-- Witness for C4: five rows with chunk size two yield three chunks, the
third chunk holding exactly id four, and the chunks flatten back to the
id range. -/
theorem chunk_planning_partitions_witness :
    (planChunks (List.range 5) 2).length = 3 ∧
    (planChunks (List.range 5) 2)[2]? = some [4] ∧
    (planChunks (List.range 5) 2).flatten = List.range 5 := by
  have h := chunk_planning_partitions 5 2 (by decide)
  refine ⟨h.1.trans (by norm_num), ?_, h.2.2⟩
  rw [h.2.1 2]
  decide

theorem runLoop_parts (oracle : Nat → Option PartShape) :
    ∀ (L : List Nat) (st : WState) (j : Nat),
    ((L.foldl (processChunk oracle) st)).parts j =
      if j ∈ L then oracle j else st.parts j := by
  intro L
  induction L with
  | nil => intro st j; simp
  | cons a rest ih =>
    intro st j
    rw [List.foldl_cons, ih]
    by_cases hjr : j ∈ rest
    · rw [if_pos hjr, if_pos (List.mem_cons_of_mem _ hjr)]
    · rw [if_neg hjr]
      by_cases hja : j = a
      · subst hja
        simp [processChunk]
      · simp [processChunk, hja, List.mem_cons, hjr]

theorem runLoop_pstore (oracle : Nat → Option PartShape) :
    ∀ (L : List Nat) (st : WState) (j : Nat),
    ((L.foldl (processChunk oracle) st)).pstore j =
      if j ∈ L then some (storedVal (oracle j)) else st.pstore j := by
  intro L
  induction L with
  | nil => intro st j; simp
  | cons a rest ih =>
    intro st j
    rw [List.foldl_cons, ih]
    by_cases hjr : j ∈ rest
    · rw [if_pos hjr, if_pos (List.mem_cons_of_mem _ hjr)]
    · rw [if_neg hjr]
      by_cases hja : j = a
      · subst hja
        simp [processChunk]
      · simp [processChunk, hja, List.mem_cons, hjr]

theorem mergeInput_final (oracle : Nat → Option PartShape) (st0 : WState)
    (hstore : ∀ j, st0.pstore j = none ∨
      st0.pstore j = some (storedVal (oracle j)))
    (hparts : ∀ j, st0.parts j = none)
    (total j : Nat) (hj : j < total) :
    mergeInput (runWorkerLoop oracle st0 total) j
      = some (storedVal (oracle j)) := by
  unfold runWorkerLoop mergeInput
  rw [runLoop_parts, runLoop_pstore]
  by_cases hcl : j ∈ claimedIndices (doneOf st0) total
  · rw [if_pos hcl, if_pos hcl]
    cases ho : oracle j with
    | none => rfl
    | some p => rfl
  · rw [if_neg hcl, if_neg hcl, hparts j]
    have hdone : doneOf st0 j = true := by
      by_contra hnd
      apply hcl
      unfold claimedIndices
      rw [List.mem_filter]
      refine ⟨List.mem_range.mpr hj, ?_⟩
      have hfalse : doneOf st0 j = false := by
        cases hdj : doneOf st0 j
        · rfl
        · exact absurd hdj hnd
      rw [hfalse]
      rfl
    unfold doneOf at hdone
    rcases hstore j with h | h
    · rw [h] at hdone
      simp at hdone
    · exact h

/-- C2: resume idempotence.  With the partials of chunks below i already
persisted by a prior run with the same deterministic completion
responses, re-running the worker claims exactly the chunk indices from i
upward (the resume scan marks the persisted ones done and the cursor
never hands out a done index), and the final merged table equals the one
an uninterrupted run from an empty store produces. -/
theorem resume_idempotent (rows : List Row)
    (oracle : Nat → Option PartShape) (total i : Nat) :
    (claimedIndices (doneOf (resumedState oracle i)) total
      = (List.range total).filter (fun j => decide (i ≤ j))) ∧
    finalTable rows oracle (resumedState oracle i) total
      = finalTable rows oracle wstateEmpty total := by
  constructor
  · apply List.filter_congr
    intro a _
    simp only [doneOf, resumedState]
    by_cases h : a < i
    · simp [h, Nat.not_le.mpr h]
    · simp [h, Nat.le_of_not_lt h]
  · unfold finalTable
    congr 1
    apply List.map_congr_left
    intro j hj
    have hj2 : j < total := List.mem_range.mp hj
    have h1 := mergeInput_final oracle (resumedState oracle i)
      (fun j2 => by
        simp only [resumedState]
        by_cases h : j2 < i
        · right
          rw [if_pos h]
        · left
          rw [if_neg h])
      (fun _ => rfl) total j hj2
    have h2 := mergeInput_final oracle wstateEmpty
      (fun _ => Or.inl rfl) (fun _ => rfl) total j hj2
    rw [h1, h2]

/-- Counterexample for C3: the partial flag is not overwritten by the
delta.  With a previous record whose flag is true and a delta carrying
false, the updated record still carries true, contradicting the claim
that all non-counter fields overwrite. -/
theorem status_partial_flag_counterexample :
    deltaCex.partialFlag = false ∧
    (nextStatus (some prevStatusCex) "running" deltaCex none "t1").partialFlag
      = true := by
  exact ⟨rfl, rfl⟩

/-- C3 (amended): the status update is a pure function of the previous
persisted record and the delta in which the two progress counters are
clamped with max and so never decrease across writes; the partial flag
is the disjunction of the delta flag and the previous flag (monotone,
not an overwrite); the other fields overwrite when the delta provides
them and otherwise keep their previous value; and with a message the
event log becomes the last 49 previous entries followed by one new
timestamped entry, hence never exceeds 50 entries. -/
theorem status_update_spec (p : StatusRec) (delta : StatusDelta)
    (statusArg m now : String) :
    (nextStatus (some p) statusArg delta (some m) now).completedChunks
      = max p.completedChunks
          ((delta.completedChunks).getD p.completedChunks) ∧
    (nextStatus (some p) statusArg delta (some m) now).processedRows
      = max p.processedRows ((delta.processedRows).getD p.processedRows) ∧
    p.completedChunks
      ≤ (nextStatus (some p) statusArg delta (some m) now).completedChunks ∧
    p.processedRows
      ≤ (nextStatus (some p) statusArg delta (some m) now).processedRows ∧
    (nextStatus (some p) statusArg delta (some m) now).partialFlag
      = (delta.partialFlag || p.partialFlag) ∧
    (nextStatus (some p) statusArg delta (some m) now).totalChunks
      = (delta.totalChunks).getD p.totalChunks ∧
    (nextStatus (some p) statusArg delta (some m) now).lastErrorStatus
      = (match delta.lastErrorStatus with
         | some s => some s
         | none => p.lastErrorStatus) ∧
    (nextStatus (some p) statusArg delta (some m) now).events
      = sliceLast 49 p.events ++ [(now, m)] ∧
    (nextStatus (some p) statusArg delta (some m) now).events.length ≤ 50 := by
  refine ⟨rfl, rfl, le_max_left _ _, le_max_left _ _, rfl, rfl, rfl, rfl, ?_⟩
  show (sliceLast 49 p.events ++ [(now, m)]).length ≤ 50
  rw [List.length_append]
  unfold sliceLast
  rw [List.length_drop]
  simp only [List.length_singleton]
  omega

theorem runRetry_exhaust (call : Nat → Except (Option Nat) (Option PartShape))
    (sts : Nat → Option Nat) (retries : Nat)
    (hcall : ∀ n, call n = .error (sts n))
    (hretr : ∀ n, retriable (sts n) = true) :
    ∀ (k a : Nat), retries - a = k → a ≤ retries →
    runRetry call retries a = .error (sts retries) := by
  intro k
  induction k with
  | zero =>
    intro a hk ha
    have hae : a = retries := by omega
    subst hae
    rw [runRetry, hcall a]
    show (if _ : a ≤ a ∨ retriable (sts a) = false then Except.error (sts a)
          else runRetry call a (a + 1)) = Except.error (sts a)
    rw [dif_pos (Or.inl (le_refl a))]
  | succ k ih =>
    intro a hk ha
    rw [runRetry, hcall a]
    have hcond : ¬ (retries ≤ a ∨ retriable (sts a) = false) := by
      push_neg
      exact ⟨by omega, by rw [hretr a]; simp⟩
    show (if _ : retries ≤ a ∨ retriable (sts a) = false
          then Except.error (sts a)
          else runRetry call retries (a + 1)) = Except.error (sts retries)
    rw [dif_neg hcond]
    exact ih (a + 1) (by omega) (by omega)

/-- C5 (amended): a completion failure is retried exactly when its status
is 429, in the 5xx range, or absent; a non-retriable failure propagates
immediately; when every attempt fails retriably the loop performs
exactly the bounded number of retries (five at the default) and then
propagates the error observed at the final attempt; and the delay before
the retry with counter a equals min of the cap and base times two to the
a, multiplied by a jitter factor of one half plus the uniform draw — a
factor in the half-open interval from one half to three halves, not the
claimed interval from one half to one. -/
theorem retry_policy_spec (retries : Nat) :
    (∀ st : Option Nat, retriable st = true ↔
      (st = none ∨ st = some 429 ∨ ∃ s, st = some s ∧ 500 ≤ s ∧ s < 600)) ∧
    (∀ (call : Nat → Except (Option Nat) (Option PartShape))
       (st : Option Nat) (a : Nat),
       call a = .error st → retriable st = false →
       runRetry call retries a = .error st) ∧
    (∀ (call : Nat → Except (Option Nat) (Option PartShape))
       (sts : Nat → Option Nat),
       (∀ n, call n = .error (sts n)) → (∀ n, retriable (sts n) = true) →
       runRetry call retries 0 = .error (sts retries)) ∧
    (∀ (base cap r : ℚ) (a : Nat), 0 ≤ r → r < 1 →
       delayFor base cap a r = min cap (base * 2 ^ a) * (1 / 2 + r) ∧
       1 / 2 ≤ 1 / 2 + r ∧ 1 / 2 + r < 3 / 2) := by
  refine ⟨?_, ?_, ?_, ?_⟩
  · intro st
    cases st with
    | none => simp [retriable]
    | some s =>
      simp only [retriable, Bool.or_eq_true, beq_iff_eq, Bool.and_eq_true,
        decide_eq_true_eq]
      constructor
      · rintro (h | ⟨h1, h2⟩)
        · exact Or.inr (Or.inl (by rw [h]))
        · exact Or.inr (Or.inr ⟨s, rfl, h1, h2⟩)
      · rintro (h | h | ⟨s2, hs2, h1, h2⟩)
        · exact absurd h (by simp)
        · left
          injection h
        · injection hs2 with hs2
          subst hs2
          exact Or.inr ⟨h1, h2⟩
  · intro call st a hcall hst
    rw [runRetry, hcall]
    show (if _ : retries ≤ a ∨ retriable st = false then Except.error st
          else runRetry call retries (a + 1)) = Except.error st
    rw [dif_pos (Or.inr hst)]
  · intro call sts h1 h2
    exact runRetry_exhaust call sts retries h1 h2 (retries - 0) 0 rfl
      (Nat.zero_le _)
  · intro base cap r a h0 h1
    refine ⟨rfl, by linarith, by linarith⟩

/-- Counterexample for C5: the jitter factor is one half plus a uniform
draw from the unit interval and so ranges up to three halves.  With draw
nine tenths, the delay for attempt zero at the default base 300 and cap
5000 is 420, strictly above 300, the largest value the claimed factor
interval up to one would allow. -/
theorem retry_jitter_counterexample :
    delayFor 300 5000 0 (9 / 10) = 420 ∧
    ¬ delayFor 300 5000 0 (9 / 10) ≤ min 5000 (300 * 2 ^ 0) * 1 := by
  constructor
  · norm_num [delayFor]
  · norm_num [delayFor]

/-- Witness for C5: a 404 failure propagates immediately, a persistent
503 failure exhausts the five retries and propagates, and the delay at
attempt two with draw one half evaluates through the spec formula. -/
theorem retry_policy_spec_witness :
    runRetry (fun _ => (Except.error (some 404) :
      Except (Option Nat) (Option PartShape))) 5 0
      = Except.error (some 404) ∧
    runRetry (fun _ => (Except.error (some 503) :
      Except (Option Nat) (Option PartShape))) 5 0
      = Except.error (some 503) ∧
    delayFor 300 5000 2 (1 / 2) = 1200 := by
  refine ⟨?_, ?_, ?_⟩
  · exact (retry_policy_spec 5).2.1
      (fun _ => Except.error (some 404)) (some 404) 0 rfl (by decide)
  · exact (retry_policy_spec 5).2.2.1
      (fun _ => Except.error (some 503)) (fun _ => some 503)
      (fun _ => rfl) (fun _ => show retriable (some 503) = true by decide)
  · have h := ((retry_policy_spec 5).2.2.2 300 5000 (1 / 2) 2 (by norm_num)
      (by norm_num)).1
    rw [h]
    norm_num [min_def]

/-- Counterexample for C6: a lease record whose parsed timestamp is zero
fails the truthiness test and is treated as absent.  At time five a
record with timestamp zero exists and five minus zero is far below the
TTL, yet the call acquires instead of declining. -/
theorem acquire_lock_zero_ts_counterexample :
    (acquireLock 5 (some 0)).1 = true ∧ (5 : Int) - 0 < LOCK_TTL_MS := by
  constructor
  · decide
  · decide

/-- C6 (amended): lease acquisition declines exactly when a record exists
whose parsed timestamp is nonzero (a zero or unparsable timestamp is
treated as no record) and younger than the TTL; when it declines it
writes nothing; otherwise it acquires, writes a fresh record carrying
the current time, and starts the heartbeat at its fixed interval, which
is shorter than the TTL. -/
theorem acquire_lock_spec (now : Int) (lock : Option Int) :
    ((acquireLock now lock).1 = false ↔
      (∃ ts, lock = some ts ∧ ts ≠ 0 ∧ now - ts < LOCK_TTL_MS)) ∧
    ((acquireLock now lock).1 = true →
      (acquireLock now lock).2 = (some now, some LOCK_HEARTBEAT_MS)) ∧
    ((acquireLock now lock).1 = false →
      (acquireLock now lock).2 = (none, none)) ∧
    LOCK_HEARTBEAT_MS < LOCK_TTL_MS := by
  refine ⟨?_, ?_, ?_, by decide⟩
  · unfold acquireLock
    cases lock with
    | none => simp
    | some ts =>
      by_cases h1 : ts ≠ 0 ∧ now - ts < LOCK_TTL_MS
      · simp only [Option.getD_some]
        rw [if_pos (by simp [h1.1, h1.2])]
        simpa using ⟨h1.1, h1.2⟩
      · simp only [Option.getD_some]
        rw [if_neg ?hc]
        case hc =>
          simp only [Bool.and_eq_true, decide_eq_true_eq]
          intro hh
          exact h1 ⟨hh.1, hh.2⟩
        simp only [Option.some.injEq]
        constructor
        · intro hh
          exact absurd hh (by simp)
        · rintro ⟨ts2, hts, hn, hl⟩
          subst hts
          exact absurd ⟨hn, hl⟩ h1
  · intro h
    unfold acquireLock at h ⊢
    by_cases hl : (decide ((lock.getD 0) ≠ 0) &&
        decide (now - lock.getD 0 < LOCK_TTL_MS)) = true
    · rw [if_pos hl] at h
      exact absurd h (by simp)
    · rw [if_neg hl] at h ⊢
  · intro h
    unfold acquireLock at h ⊢
    by_cases hl : (decide ((lock.getD 0) ≠ 0) &&
        decide (now - lock.getD 0 < LOCK_TTL_MS)) = true
    · rw [if_pos hl]
    · rw [if_neg hl] at h
      exact absurd h (by simp)

/-- Witness for C6: a record fifty milliseconds after the epoch declines
a call at time five hundred thousand (inside the TTL) and a call at time
two million (outside the TTL) acquires and writes the fresh record and
the heartbeat interval. -/
theorem acquire_lock_spec_witness :
    (acquireLock 500000 (some 50)).1 = false ∧
    (acquireLock 2000000 (some 50)).1 = true ∧
    (acquireLock 2000000 (some 50)).2
      = (some 2000000, some LOCK_HEARTBEAT_MS) := by
  refine ⟨?_, by decide, ?_⟩
  · exact (acquire_lock_spec 500000 (some 50)).1.mpr
      ⟨50, rfl, by decide, by decide⟩
  · exact (acquire_lock_spec 2000000 (some 50)).2.1 (by decide)

theorem runAllChunks_ok_mem
    (call : Nat → Nat → Except (Option Nat) (Option PartShape))
    (retries : Nat) :
    ∀ (L : List Nat) (ps : List (Option PartShape)),
    runAllChunks call retries L = .ok ps →
    ∀ j ∈ L, ∃ p, runRetry (call j) retries 0 = .ok p := by
  intro L
  induction L with
  | nil =>
    intro ps _ j hj
    simp at hj
  | cons a rest ih =>
    intro ps h j hj
    cases hr : runRetry (call a) retries 0 with
    | error e =>
      rw [runAllChunks, hr] at h
      exact absurd h (by simp)
    | ok p =>
      cases hrest : runAllChunks call retries rest with
      | error e =>
        rw [runAllChunks, hr, hrest] at h
        exact absurd h (by simp)
      | ok ps2 =>
        rcases List.mem_cons.mp hj with he | hj2
        · subst he
          exact ⟨p, hr⟩
        · exact ih ps2 hrest j hj2

theorem batchInit_len (rows : List Row) :
    (batchInit rows).length = rows.length := by
  simp [batchInit]

theorem fillChunkError_succ (b : Int) (msg : String) (K : Nat)
    (merged : List Row) :
    fillChunkError b (K + 1) msg merged =
      (if 0 ≤ b + (K : Int) ∧
          b + (K : Int) < ((fillChunkError b K msg merged).length : Int) then
        (fillChunkError b K msg merged).set (b + (K : Int)).toNat
          (setCol ((fillChunkError b K msg merged).getD (b + (K : Int)).toNat
            []) "result" ("ERROR: " ++ msg))
      else fillChunkError b K msg merged) := by
  unfold fillChunkError
  rw [List.range_succ, List.foldl_append, List.foldl_cons, List.foldl_nil]

theorem fillChunkError_len (b : Int) (msg : String) :
    ∀ (K : Nat) (merged : List Row),
    (fillChunkError b K msg merged).length = merged.length := by
  intro K
  induction K with
  | zero => intro merged; rfl
  | succ K ih =>
    intro merged
    rw [fillChunkError_succ]
    by_cases h : 0 ≤ b + (K : Int) ∧
        b + (K : Int) < ((fillChunkError b K msg merged).length : Int)
    · rw [if_pos h, List.length_set, ih]
    · rw [if_neg h, ih]

theorem fillChunkError_at (msg : String) (b : Int) (hb : 0 ≤ b) :
    ∀ (K : Nat) (merged : List Row) (j : Nat),
    b.toNat ≤ j → (j : Int) < b + K → j < merged.length →
    colValue ((fillChunkError b K msg merged).getD j []) "result"
      = "ERROR: " ++ msg := by
  intro K
  induction K with
  | zero =>
    intro merged j h1 h2 _
    exfalso
    omega
  | succ K ih =>
    intro merged j h1 h2 h3
    rw [fillChunkError_succ]
    by_cases hj : (j : Int) = b + K
    · have hK : (b + (K : Int)).toNat = j := by omega
      have hlen := fillChunkError_len b msg K merged
      have hcond : 0 ≤ b + (K : Int) ∧
          b + (K : Int) < ((fillChunkError b K msg merged).length : Int) := by
        rw [hlen]
        omega
      rw [if_pos hcond, hK,
        getD_set_self _ _ _ (by rw [hlen]; exact h3)]
      simp only [colValue]
      rw [getCol_setCol_self]
      rfl
    · have hne : j ≠ (b + (K : Int)).toNat := by omega
      by_cases hcond : 0 ≤ b + (K : Int) ∧
          b + (K : Int) < ((fillChunkError b K msg merged).length : Int)
      · rw [if_pos hcond, getD_set_ne _ _ _ _ hne]
        exact ih merged j h1 (by omega) h3
      · rw [if_neg hcond]
        exact ih merged j h1 (by omega) h3

/-- C7: dual failure policy for a wholly failed chunk.  In the resumable
worker path, when the retry-wrapped completion call of some planned
chunk gives up with an error, the whole job aborts: the outcome is an
error, the terminal status is failed, and no merged artifact is
produced.  In the batch flow, an output line whose chunk failed with an
error message instead writes an ERROR marker string into the result
column of every row of that chunk, and the flow still yields a table
with one row per original row. -/
theorem dual_failure_policy :
    (∀ (rows : List Row)
       (call : Nat → Nat → Except (Option Nat) (Option PartShape))
       (retries total j : Nat) (e : Option Nat),
       j < total → runRetry (call j) retries 0 = .error e →
       (∃ e2, directJobOutcome rows call retries total = .error e2) ∧
       jobFinalStatus (directJobOutcome rows call retries total)
         = "failed") ∧
    (∀ (rows : List Row) (b : Int) (K : Nat) (m : String),
       m ≠ "" → 0 ≤ b →
       (processLine K false (batchInit rows)
          { base := b, successText := "", errMsg := m,
            parsedShape := .unparsed }).length = rows.length ∧
       (∀ j : Nat, b.toNat ≤ j → (j : Int) < b + K → j < rows.length →
         colValue ((processLine K false (batchInit rows)
            { base := b, successText := "", errMsg := m,
              parsedShape := .unparsed }).getD j []) "result"
           = "ERROR: " ++ m)) := by
  constructor
  · intro rows call retries total j e hj hfail
    have herr : ∃ e2, runAllChunks call retries (List.range total)
        = .error e2 := by
      cases hr : runAllChunks call retries (List.range total) with
      | error e2 => exact ⟨e2, rfl⟩
      | ok ps =>
        obtain ⟨p, hp⟩ := runAllChunks_ok_mem call retries _ ps hr j
          (List.mem_range.mpr hj)
        rw [hfail] at hp
        exact absurd hp (by simp)
    obtain ⟨e2, he2⟩ := herr
    refine ⟨⟨e2, ?_⟩, ?_⟩
    · unfold directJobOutcome
      rw [he2]
    · unfold jobFinalStatus directJobOutcome
      rw [he2]
  · intro rows b K m hm hb
    have hred : processLine K false (batchInit rows)
        { base := b, successText := "", errMsg := m,
          parsedShape := .unparsed }
        = fillChunkError b K m (batchInit rows) := by
      unfold processLine
      rw [if_neg (by simp), if_pos (by simpa using hm)]
    rw [hred]
    refine ⟨by rw [fillChunkError_len, batchInit_len], ?_⟩
    intro j h1 h2 h3
    exact fillChunkError_at m b hb K (batchInit rows) j h1 h2
      (by rw [batchInit_len]; exact h3)

/-- Witness for C7: with one chunk whose call always fails with status
400, the direct job outcome is an error with terminal status failed; and
a batch error line with message boom over a two-row table with chunk
size two marks row one with the ERROR string. -/
theorem dual_failure_policy_witness :
    (∃ e2, directJobOutcome rowsTwo
      (fun _ _ => Except.error (some 400)) 5 1 = .error e2) ∧
    jobFinalStatus (directJobOutcome rowsTwo
      (fun _ _ => Except.error (some 400)) 5 1) = "failed" ∧
    colValue ((processLine 2 false (batchInit rowsTwo)
      { base := 0, successText := "", errMsg := "boom",
        parsedShape := .unparsed }).getD 1 []) "result" = "ERROR: boom" := by
  have hfail : runRetry ((fun _ _ => Except.error (some 400) :
      Nat → Nat → Except (Option Nat) (Option PartShape)) 0) 5 0
      = Except.error (some 400) := by
    rw [runRetry]
    show (if _ : 5 ≤ 0 ∨ retriable (some 400) = false
          then (Except.error (some 400) :
            Except (Option Nat) (Option PartShape))
          else runRetry _ 5 1) = Except.error (some 400)
    rw [dif_pos (Or.inr (by decide))]
  have h1 := dual_failure_policy.1 rowsTwo
    (fun _ _ => Except.error (some 400)) 5 1 0 (some 400) (by decide) hfail
  have h2 := (dual_failure_policy.2 rowsTwo 0 2 "boom" (by decide)
    (by decide)).2 1 (by decide) (by decide) (by decide)
  exact ⟨h1.1, h1.2, h2⟩

/-- Counterexample for C8: in the direct-worker path an unparsable chunk
writes nothing at all.  Running the single chunk of a two-row table with
a completion text that fails to parse (the oracle yields none, and the
empty object is persisted and then rejected by the merge shape guard)
returns the table unchanged with no dynamic column: in particular the
first row's result column stays empty instead of receiving the raw
completion text. -/
theorem malformed_direct_counterexample :
    finalTable rowsTwo (fun _ => none) wstateEmpty 1 = (rowsTwo, []) ∧
    colValue ((finalTable rowsTwo (fun _ => none) wstateEmpty 1).1.getD 0 [])
      "result" = "" := by
  constructor
  · rfl
  · rfl

/-- C8 (amended): reconciliation never aborts on malformed completion
text, but the two flows degrade differently: the direct-worker merge
skips an absent or shape-rejected partial entirely, leaving every row
and the dynamic column set unchanged (the raw completion text is
discarded), while the batch flow writes the raw completion text into the
result column of the chunk's base row and leaves every other row
unchanged. -/
theorem malformed_output_fallback :
    (∀ (st : List Row × List String),
      applyPartOpt st none = st ∧ applyPartOpt st (some .invalid) = st) ∧
    (∀ (rows : List Row) (b : Int) (t : String) (K : Nat),
      t ≠ "" → 0 ≤ b → b < (rows.length : Int) →
      colValue ((processLine K false (batchInit rows)
         { base := b, successText := t, errMsg := "",
           parsedShape := .unparsed }).getD b.toNat []) "result" = t ∧
      (∀ j, j ≠ b.toNat →
        (processLine K false (batchInit rows)
           { base := b, successText := t, errMsg := "",
             parsedShape := .unparsed }).getD j []
          = (batchInit rows).getD j [])) := by
  constructor
  · intro st
    exact ⟨rfl, rfl⟩
  · intro rows b t K ht hb hblt
    have hred : processLine K false (batchInit rows)
        { base := b, successText := t, errMsg := "",
          parsedShape := .unparsed }
        = setResultAt (batchInit rows) b t := by
      unfold processLine
      rw [if_pos ⟨rfl, ht⟩]
    have hcond : 0 ≤ b ∧ b < ((batchInit rows).length : Int) := by
      rw [batchInit_len]
      exact ⟨hb, hblt⟩
    have hset : setResultAt (batchInit rows) b t
        = (batchInit rows).set b.toNat
            (setCol ((batchInit rows).getD b.toNat []) "result" t) := by
      unfold setResultAt
      rw [if_pos hcond]
    rw [hred, hset]
    constructor
    · have hlt : b.toNat < (batchInit rows).length := by
        rw [batchInit_len]
        omega
      rw [getD_set_self _ _ _ hlt]
      simp only [colValue]
      rw [getCol_setCol_self]
      rfl
    · intro j hj
      rw [getD_set_ne _ _ _ _ hj]

/-- Witness for C8: skipping a rejected partial on a concrete state, and
the batch raw-text fallback on a concrete two-row table writing oops
into row zero and leaving row one unchanged. -/
theorem malformed_output_fallback_witness :
    applyPartOpt (rowsTwo, ["x"]) (some .invalid) = (rowsTwo, ["x"]) ∧
    colValue ((processLine 1 false (batchInit rowsTwo)
      { base := 0, successText := "oops", errMsg := "",
        parsedShape := .unparsed }).getD 0 []) "result" = "oops" ∧
    (processLine 1 false (batchInit rowsTwo)
      { base := 0, successText := "oops", errMsg := "",
        parsedShape := .unparsed }).getD 1 []
      = (batchInit rowsTwo).getD 1 [] := by
  have h1 := (malformed_output_fallback.1 (rowsTwo, ["x"])).2
  have h2 := malformed_output_fallback.2 rowsTwo 0 "oops" 1 (by decide)
    (by decide) (by decide)
  exact ⟨h1, h2.1, h2.2 1 (by decide)⟩

/-- C9: the status endpoint reports readiness from artifact existence
alone: whenever the stored final artifact text exists, the response
carries ready true and status ready, regardless of whether a status
record exists or what status value it carries. -/
theorem artifact_implies_ready (statusJson : Option StatusRec)
    (txt : String) :
    (directStatusResponse statusJson (some txt)).1 = true ∧
    (directStatusResponse statusJson (some txt)).2 = "ready" := by
  unfold directStatusResponse
  cases statusJson with
  | none => simp
  | some s =>
    by_cases h : s.status = "ready"
    · simp [h]
    · simp [h]

theorem applyItemChecked_ofIntItem (st : List Row × List String)
    (item : ResultItem) :
    applyItemChecked st (ofIntItem item) = some (applyItem st item) := by
  obtain ⟨oid, ocols, ores⟩ := item
  cases oid with
  | none => rfl
  | some i =>
    simp only [ofIntItem, applyItemChecked, applyItem]
    by_cases hb : i < 0 ∨ (st.1.length : Int) ≤ i
    · rw [if_pos hb, if_pos hb]
    · rw [if_neg hb, if_neg hb]
      cases ocols with
      | some entries => rfl
      | none =>
        cases ores with
        | some r => rfl
        | none => rfl

/-- Counterexample for C10: the merge step is not total and does not
silently skip every malformed id.  A per-row result whose id is the
finite non-integer two and a half, against a three-row table, passes the
finiteness and bounds guards, and the write to the undefined row element
throws a TypeError (modelled as none) instead of leaving the state
unchanged. -/
theorem merge_fractional_id_counterexample :
    applyItemChecked (rowsThreeCex, []) fracItemCex = none ∧
    applyItemChecked (rowsThreeCex, []) fracItemCex
      ≠ some (rowsThreeCex, []) := by
  constructor
  · rfl
  · decide

/-- C10 (amended): bounds behaviour of the merge with respect to row
ids.  A per-row result whose id is not a finite number, or whose id
(integer or not) lies outside the row range, is silently skipped; on
results with integer or non-finite ids the checked step agrees with the
total merge step, whose fold preserves the row count and leaves every
untargeted row's original fields unchanged, and the batch assignment
loop also preserves the row count.  The merge is however not total: a
result whose id is a finite non-integer inside the row range and which
carries a cols entry or a bare result string makes the merge step throw
(aborting reconciliation, so in the worker path the job fails), and the
batch assignment likewise throws on an explicit in-range finite
non-integer id. -/
theorem merge_bounds_behaviour :
    (∀ (st : List Row × List String) (item : ResultItemJs),
      (item.id = .nonFinite ∨
       (∃ i, item.id = .intId i ∧ (i < 0 ∨ (st.1.length : Int) ≤ i)) ∨
       (∃ lo, item.id = .fracId lo ∧
         (lo < 0 ∨ (st.1.length : Int) ≤ lo))) →
      applyItemChecked st item = some st) ∧
    (∀ (st : List Row × List String) (item : ResultItemJs) (lo : Int),
      item.id = .fracId lo → 0 ≤ lo → lo < (st.1.length : Int) →
      ((∃ e rest, item.cols = some (e :: rest)) ∨
       (item.cols = none ∧ ∃ r, item.result = some r)) →
      applyItemChecked st item = none) ∧
    (∀ (st : List Row × List String) (item : ResultItem),
      applyItemChecked st (ofIntItem item) = some (applyItem st item)) ∧
    (∀ (rows : List Row) (parts : List (Option PartShape)),
      (mergeState rows parts).1.length = rows.length) ∧
    (∀ (rows : List Row) (parts : List (Option PartShape)) (j : Nat),
      (∀ op ∈ parts, ∀ item ∈ partItems op, item.id ≠ some (j : Int)) →
      (mergeState rows parts).1.getD j [] = rows.getD j []) ∧
    (∀ (merged : List Row) (arr : List BatchItem) (base : Int),
      (assignByArray merged arr base).length = merged.length) ∧
    (∀ (merged : List Row) (base : Int) (jpos : Nat) (val : String)
       (lo : Int),
      0 ≤ lo → lo < (merged.length : Int) →
      assignItemChecked merged (.fracId lo) base jpos val = none) := by
  refine ⟨?_, ?_, applyItemChecked_ofIntItem, mergeState_len, ?_,
    assignByArray_len, ?_⟩
  · intro st item h
    obtain ⟨oid, ocols, ores⟩ := item
    rcases h with h | ⟨i, hi, hb⟩ | ⟨lo, hlo, hb⟩
    · have he : oid = .nonFinite := h
      subst he
      rfl
    · have he : oid = .intId i := hi
      subst he
      simp only [applyItemChecked]
      rw [if_pos hb]
    · have he : oid = .fracId lo := hlo
      subst he
      simp only [applyItemChecked]
      rw [if_pos hb]
  · intro st item lo hid h0 hlt hwrite
    obtain ⟨oid, ocols, ores⟩ := item
    have he : oid = .fracId lo := hid
    subst he
    simp only [applyItemChecked]
    rw [if_neg (by omega)]
    rcases hwrite with ⟨e, rest, hc⟩ | ⟨hc, r, hr⟩
    · have hce : ocols = some (e :: rest) := hc
      subst hce
      rfl
    · have hce : ocols = none := hc
      subst hce
      have hre : ores = some r := hr
      subst hre
      rfl
  · intro rows parts j h
    unfold mergeState
    exact foldl_applyPartOpt_rowAt_ne j parts (rows, []) h
  · intro merged base jpos val lo h0 hlt
    simp only [assignItemChecked]
    rw [if_pos ⟨h0, hlt⟩]

/-- Witness for C10: an out-of-range fractional id is skipped on a
concrete state, an integer-id item agrees with the total step, a
concrete in-range fractional id with a bare result string throws, the
untargeted row zero of a concrete merge is unchanged, and the batch
assignment throws on an in-range fractional id. -/
theorem merge_bounds_behaviour_witness :
    applyItemChecked (rowsThreeCex, [])
      { id := .fracId 9, cols := some [("x", .jstr "y")], result := none }
      = some (rowsThreeCex, []) ∧
    applyItemChecked (rowsThreeCex, [])
      (ofIntItem { id := some 1, cols := some [("x", .jstr "y")],
                   result := none })
      = some (applyItem (rowsThreeCex, [])
          { id := some 1, cols := some [("x", .jstr "y")],
            result := none }) ∧
    applyItemChecked (rowsThreeCex, [])
      { id := .fracId 0, cols := none, result := some "w" } = none ∧
    (mergeState rowsTwo
      [some (.resultsObj
        [{ id := some 99, cols := some [("x", .jstr "y")],
           result := none }])]).1.getD 0 [] = rowsTwo.getD 0 [] ∧
    assignItemChecked rowsThreeCex (.fracId 1) 0 0 "z" = none := by
  refine ⟨?_, ?_, ?_, ?_, ?_⟩
  · exact merge_bounds_behaviour.1 _ _ (Or.inr (Or.inr ⟨9, rfl, by decide⟩))
  · exact merge_bounds_behaviour.2.2.1 _ _
  · exact merge_bounds_behaviour.2.1 _ _ 0 rfl (by decide) (by decide)
      (Or.inr ⟨rfl, "w", rfl⟩)
  · exact merge_bounds_behaviour.2.2.2.2.1 _ _ 0 (by decide)
  · exact merge_bounds_behaviour.2.2.2.2.2.2 rowsThreeCex 0 0 "z" 1
      (by decide) (by decide)
